import Mathlib

/-!
Shallow embedding of the `xvii` Roman-numeral crate.

Sources embedded:
  * `src/roman.rs`   — `Roman` (NonZeroU16 wrapper), `Roman::new`, `Roman::value`,
    `Roman::to_uppercase`, `Roman::to_lowercase`, `Roman::format`, `Style`,
    `RomanFormatter` and its `Display` impl, `FromStr for Roman`, `Display for Roman`.
  * `src/roman/ladder.rs` — `LadderEntry`, `VALUES`.
  * `src/unit.rs`    — `Accumulator`, `PushResult`, `RomanUnitIterator`, `to_digit`.

Strings are modelled as Lean `String`s; the parser consumes the list of character
codes (`s.data.map Char.toNat`), mirroring `s.bytes()` on the ASCII inputs the
numeral alphabet consists of.

The repository's `src/` mixes two snapshots of the crate: `unit.rs` carries `i32`
unit values while `roman.rs`'s `FromStr` impl folds the iterator's unit values
with `checked_add` into the `u16` consumed by `Roman::new` (and the neighbouring
`overflow` test exercises `u16`-width overflow: 66 copies of `M` already fail).
We follow both where they speak: the accumulator state machine is taken verbatim
from `unit.rs` (unit values as mathematical integers, `Int`), and the running
summation of `from_str` performs `u16` checked addition — `checkedAdd` fails with
`Error.overflow` whenever the new sum leaves `[0, 65535]`, exactly the behaviour
`roman.rs`'s own `overflow` test pins down.
-/

namespace Xvii

/-- Error enum of the crate as used by `roman.rs` (`Error::Overflow`,
`Error::OutOfRange(sum)`) and produced by `to_digit` in `unit.rs`
(`invalid_digit(c)` carrying the offending byte). -/
inductive Error where
  | invalidDigit (b : Nat)
  | outOfRange (n : Nat)
  | overflow
deriving DecidableEq, Repr

deriving instance DecidableEq for Except

/-- ASCII lowercasing of a byte, `u8::to_ascii_lowercase`. -/
def toAsciiLowercase (c : Nat) : Nat :=
  if 65 ≤ c ∧ c ≤ 90 then c + 32 else c

/-- The lookup `to_digit` from `unit.rs`: case-insensitive lookup of the seven base
symbols; any other byte is an invalid digit carrying the original byte. -/
def to_digit (c : Nat) : Except Error Int :=
  match toAsciiLowercase c with
  | 109 => .ok 1000  -- b'm'
  | 100 => .ok 500   -- b'd'
  | 99  => .ok 100   -- b'c'
  | 108 => .ok 50    -- b'l'
  | 120 => .ok 10    -- b'x'
  | 118 => .ok 5     -- b'v'
  | 105 => .ok 1     -- b'i'
  | _   => .error (.invalidDigit c)

/-- The `Accumulator` from `unit.rs`: the current run's repetition count and
digit value. -/
structure Accumulator where
  qty : Int
  val : Int
deriving DecidableEq, Repr

/-- Constructor `Accumulator::new`. -/
def Accumulator.new (val : Int) : Accumulator := ⟨1, val⟩

/-- The run's total, `Accumulator::value`, i.e. `qty * val`. -/
def Accumulator.value (a : Accumulator) : Int := a.qty * a.val

/-- The `PushResult` from `unit.rs`; `Continue` is the source's `Partial` variant,
`Complete` is its `Complete`. -/
inductive PushResult where
  | Continue (a : Accumulator)
  | Complete (n : Int) (a : Option Accumulator)
deriving DecidableEq, Repr

/-- The transition `Accumulator::push`: equal value extends the run; a larger value completes
a subtractive unit `val - qty*self.val`; a smaller value completes the run's
total and starts a fresh accumulator. -/
def Accumulator.push (a : Accumulator) (val : Int) : PushResult :=
  if a.val = val then .Continue ⟨a.qty + 1, a.val⟩
  else if a.val < val then .Complete (val - a.value) none
  else .Complete a.value (some (Accumulator.new val))

/-- Checked addition `u16::checked_add` as used by `from_str`'s `try_fold`: adding the freshly
emitted unit value to the running `u16` sum, failing with `Error::Overflow`
when the result does not fit in a `u16`. (Unit values are carried as `Int`;
a result outside `[0, 65535]` cannot be represented and fails.) -/
def checkedAdd (v : Int) (acc : Nat) : Except Error Nat :=
  if 0 ≤ v + (acc : Int) ∧ v + (acc : Int) ≤ 65535 then .ok (v + (acc : Int)).toNat
  else .error .overflow

/-- The fused loop of `RomanUnitIterator::next` (`unit.rs`) and the
`try_fold(0, |acc, r| r?.checked_add(acc).ok_or(Error::Overflow))` of
`from_str` (`roman.rs`): scan the bytes left to right, maintaining the
optional `Accumulator` and the checked running sum; at end of input flush
the leftover accumulator. -/
def parseLoop : List Nat → Option Accumulator → Nat → Except Error Nat
  | [], none, sum => .ok sum
  | [], some a, sum => checkedAdd a.value sum
  | c :: rest, accOpt, sum =>
    match to_digit c with
    | .error e => .error e
    | .ok v =>
      match accOpt with
      | none => parseLoop rest (some (Accumulator.new v)) sum
      | some a =>
        match a.push v with
        | .Continue a2 => parseLoop rest (some a2) sum
        | .Complete n a2 =>
          match checkedAdd n sum with
          | .error e => .error e
          | .ok sum2 => parseLoop rest a2 sum2

/-- The Roman-numeral wrapper from `roman.rs`; the `NonZeroU16` payload is
modelled as a `Nat` (the validated constructor never stores `0`). -/
structure Roman where
  val : Nat
deriving DecidableEq, Repr

/-- Constructor `NonZeroU16::new`, `None` exactly on `0`. -/
def nonZeroU16New (n : Nat) : Option Nat :=
  if n = 0 then none else some n

/-- Constructor `Roman::new`: in-range values (`n <= 4999`) go through `NonZeroU16::new`,
anything larger is rejected. -/
def Roman.new (n : Nat) : Option Roman :=
  if n ≤ 4999 then (nonZeroU16New n).map Roman.mk else none

/-- Accessor `Roman::value`. -/
def Roman.value (r : Roman) : Nat := r.val

/-- Function `from_str` on a byte list: run the unit iterator with the checked fold,
then `Roman::new(sum).ok_or(Error::OutOfRange(sum))`. -/
def fromStrBytes (s : List Nat) : Except Error Roman :=
  match parseLoop s none 0 with
  | .error e => .error e
  | .ok sum =>
    match Roman.new sum with
    | some r => .ok r
    | none => .error (.outOfRange sum)

/-- Impl `FromStr for Roman` on a string (`s.bytes()` modelled as character codes). -/
def parse (s : String) : Except Error Roman :=
  fromStrBytes (s.data.map Char.toNat)

/-- Entry type `LadderEntry` from `ladder.rs`. -/
structure LadderEntry where
  upper : String
  lower : String
  value : Nat
deriving DecidableEq, Repr

/-- The table `VALUES` from `ladder.rs`: the fixed descending ladder. -/
def VALUES : List LadderEntry :=
  [⟨"M", "m", 1000⟩, ⟨"CM", "cm", 900⟩, ⟨"D", "d", 500⟩, ⟨"CD", "cd", 400⟩,
   ⟨"C", "c", 100⟩, ⟨"XC", "xc", 90⟩, ⟨"L", "l", 50⟩, ⟨"XL", "xl", 40⟩,
   ⟨"X", "x", 10⟩, ⟨"IX", "ix", 9⟩, ⟨"V", "v", 5⟩, ⟨"IV", "iv", 4⟩,
   ⟨"I", "i", 1⟩]

/-- The `Style` enum from `roman.rs`. -/
inductive Style where
  | Lower
  | Upper
deriving DecidableEq, Repr

/-- Body of the inner `while current >= entry.value` loop shared by all the
formatters, written with an explicit fuel so the recursion is structural:
each iteration lowers `current` by `value ≥ 1`, so starting the fuel at
`current` never cuts the loop short (when the fuel hits `0`, `current` is
already `0` and the guard fails anyway). The `0 < value` guard mirrors the
loop's termination condition; every ladder entry has positive value. -/
def greedyGo (value : Nat) (sym : String) :
    Nat → Nat → String → String × Nat
  | 0, current, buf => (buf, current)
  | fuel + 1, current, buf =>
    if 0 < value ∧ value ≤ current then
      greedyGo value sym fuel (current - value) (buf ++ sym)
    else (buf, current)

/-- The inner `while current >= entry.value` loop: append the entry's symbol
and subtract its value until the remainder drops below it. Returns the
extended buffer and the final remainder. -/
def greedyStep (value : Nat) (sym : String) (current : Nat) (buf : String) :
    String × Nat :=
  greedyGo value sym current current buf

/-- One `for entry in ladder::VALUES` iteration of `Roman::to_uppercase`. -/
def upperLoop (st : String × Nat) (e : LadderEntry) : String × Nat :=
  greedyStep e.value e.upper st.2 st.1

/-- One `for entry in ladder::VALUES` iteration of `Roman::to_lowercase`. -/
def lowerLoop (st : String × Nat) (e : LadderEntry) : String × Nat :=
  greedyStep e.value e.lower st.2 st.1

/-- Formatter `Roman::to_uppercase`: eager greedy formatting over the ladder. -/
def Roman.toUppercase (r : Roman) : String :=
  (VALUES.foldl upperLoop ("", r.val)).1

/-- Formatter `Roman::to_lowercase`. -/
def Roman.toLowercase (r : Roman) : String :=
  (VALUES.foldl lowerLoop ("", r.val)).1

/-- The `RomanFormatter` from `roman.rs`. -/
structure RomanFormatter where
  style : Style
  value : Nat
deriving DecidableEq, Repr

/-- Method `Roman::format`. -/
def Roman.format (r : Roman) (style : Style) : RomanFormatter :=
  ⟨style, r.val⟩

/-- The final (buffer, remainder) state of the `Display for RomanFormatter`
loop: the greedy ladder loop, writing the upper or lower symbol according to
the stored style. -/
def RomanFormatter.runState (f : RomanFormatter) : String × Nat :=
  VALUES.foldl
    (fun st e =>
      greedyStep e.value
        (match f.style with
         | .Lower => e.lower
         | .Upper => e.upper)
        st.2 st.1)
    ("", f.value)

/-- Impl `Display for RomanFormatter`: the text written by the loop. -/
def RomanFormatter.fmt (f : RomanFormatter) : String :=
  f.runState.1

/-- Impl `Display for Roman`: delegates to `self.format(Style::Upper)`. -/
def Roman.display (r : Roman) : String :=
  (r.format Style.Upper).fmt

/-! Auxiliary definitions used by the specification statements -/

/-- ASCII uppercasing of one character (`str::to_uppercase` restricted to the
ASCII range; on the Roman-numeral alphabet the Unicode conversion coincides
with this byte-wise map). -/
def asciiUpperChar (c : Char) : Char :=
  if 97 ≤ c.toNat ∧ c.toNat ≤ 122 then Char.ofNat (c.toNat - 32) else c

/-- ASCII lowercasing of one character (`str::to_lowercase` on ASCII). -/
def asciiLowerChar (c : Char) : Char :=
  if 65 ≤ c.toNat ∧ c.toNat ≤ 90 then Char.ofNat (c.toNat + 32) else c

/-- Conversion `s.to_uppercase()` on ASCII strings. -/
def upperStr (s : String) : String :=
  ⟨s.data.map asciiUpperChar⟩

/-- Conversion `s.to_lowercase()` on ASCII strings. -/
def lowerStr (s : String) : String :=
  ⟨s.data.map asciiLowerChar⟩

/-- The fourteen characters `to_digit` accepts. -/
def romanChars : List Char :=
  ['M', 'D', 'C', 'L', 'X', 'V', 'I', 'm', 'd', 'c', 'l', 'x', 'v', 'i']

/-- Whether a byte is one of the seven symbols (case-insensitively), i.e.
whether `to_digit` succeeds on it. -/
def isRomanDigit (c : Nat) : Bool :=
  match to_digit c with
  | .ok _ => true
  | .error _ => false

/-- Whether `parse` fails with an `InvalidDigit` error on the given string. -/
def failsWithInvalidDigit (s : String) : Bool :=
  match parse s with
  | .error (.invalidDigit _) => true
  | _ => false

/-- Buffer `buf` with `n` copies of `sym` appended, the shape a `while` loop that
executes `n` times gives the formatting buffer. -/
def appRep (buf sym : String) : Nat → String
  | 0 => buf
  | n + 1 => appRep (buf ++ sym) sym n

/-- One-value boolean round-trip check used by the `C1` enumeration:
parsing the `Display` output of `format` recovers the value, in both
styles. -/
def roundTripCheck (v : Nat) : Bool :=
  decide (parse ((Roman.mk v).format Style.Upper).fmt = .ok (Roman.mk v)) &&
  decide (parse ((Roman.mk v).format Style.Lower).fmt = .ok (Roman.mk v))

/-! Helper lemmas -/

/-- The digit lookup either succeeds or fails with `InvalidDigit` carrying
exactly the byte it was given. -/
theorem to_digit_cases (a : Nat) :
    (∃ v, to_digit a = .ok v) ∨ to_digit a = .error (.invalidDigit a) := by
  unfold to_digit
  split
  · exact Or.inl ⟨1000, rfl⟩
  · exact Or.inl ⟨500, rfl⟩
  · exact Or.inl ⟨100, rfl⟩
  · exact Or.inl ⟨50, rfl⟩
  · exact Or.inl ⟨10, rfl⟩
  · exact Or.inl ⟨5, rfl⟩
  · exact Or.inl ⟨1, rfl⟩
  · exact Or.inr rfl

/-- A byte outside the seven symbols produces `InvalidDigit` carrying that
byte. -/
theorem to_digit_of_invalid (a : Nat) (h : isRomanDigit a = false) :
    to_digit a = .error (.invalidDigit a) := by
  rcases to_digit_cases a with ⟨v, hv⟩ | he
  · unfold isRomanDigit at h; rw [hv] at h; cases h
  · exact he

/-- A Roman-digit byte has a successful lookup. -/
theorem to_digit_of_valid (a : Nat) (h : isRomanDigit a = true) :
    ∃ v, to_digit a = .ok v := by
  rcases to_digit_cases a with hv | he
  · exact hv
  · unfold isRomanDigit at h; rw [he] at h; cases h

/-- The only error `u16::checked_add`'s lifting can produce is `Overflow`. -/
theorem checkedAdd_error (n : Int) (sum : Nat) (e : Error)
    (h : checkedAdd n sum = .error e) : e = .overflow := by
  unfold checkedAdd at h
  split_ifs at h
  cases h
  rfl

/-- If the input contains a byte outside the seven symbols, the parse loop
fails: with `InvalidDigit` carrying the first such byte, or with `Overflow`
when the checked summation overflows before that byte is reached. -/
theorem parseLoop_first_invalid (l : List Nat) :
    ∀ (st : Option Accumulator) (sum b : Nat),
      (l.find? fun x => !isRomanDigit x) = some b →
      parseLoop l st sum = .error (.invalidDigit b) ∨
      parseLoop l st sum = .error .overflow := by
  induction l with
  | nil => intro st sum b h; cases h
  | cons a t ih =>
    intro st sum b h
    cases ha : isRomanDigit a with
    | false =>
      rw [List.find?_cons_of_pos t (by simp [ha])] at h
      cases h
      exact Or.inl (by simp only [parseLoop, to_digit_of_invalid a ha])
    | true =>
      rw [List.find?_cons_of_neg t (by simp [ha])] at h
      obtain ⟨v, hv⟩ := to_digit_of_valid a ha
      cases st with
      | none =>
        simp only [parseLoop, hv]
        exact ih _ _ _ h
      | some acc =>
        simp only [parseLoop, hv]
        cases hp : acc.push v with
        | Continue a2 =>
          simp only [hp]
          exact ih _ _ _ h
        | Complete n a2 =>
          simp only [hp]
          cases hca : checkedAdd n sum with
          | error e =>
            simp only [hca]
            rw [checkedAdd_error n sum e hca]
            exact Or.inr rfl
          | ok sum2 =>
            simp only [hca]
            exact ih _ _ _ h

/-- A run of `M`s extends the pending accumulator one repetition per byte,
and at end of input the accumulated total is pushed into the checked sum. -/
theorem parseLoop_replicateM (k : Nat) :
    ∀ (q : Int) (sum : Nat),
      parseLoop (List.replicate k 77) (some ⟨q, 1000⟩) sum =
        checkedAdd ((q + k) * 1000) sum := by
  induction k with
  | zero =>
    intro q sum
    simp [parseLoop, Accumulator.value]
  | succ m ih =>
    intro q sum
    rw [List.replicate_succ]
    have hd : to_digit 77 = .ok 1000 := by decide
    have hp : Accumulator.push ⟨q, 1000⟩ 1000 = .Continue ⟨q + 1, 1000⟩ := by
      simp [Accumulator.push]
    simp only [parseLoop, hd, hp, ih]
    have : q + 1 + (m : Int) = q + ((m : Nat) + 1 : Nat) := by push_cast; ring
    rw [this]

/-- The `while` loop runs exactly `current / value` times when the fuel is
at least `current`, leaving remainder `current % value`. -/
theorem greedyGo_eq (value : Nat) (sym : String) (hv : 0 < value) :
    ∀ (fuel current : Nat) (buf : String), current ≤ fuel →
      greedyGo value sym fuel current buf =
        (appRep buf sym (current / value), current % value) := by
  intro fuel
  induction fuel with
  | zero =>
    intro current buf hle
    obtain rfl : current = 0 := by omega
    simp [greedyGo, appRep]
  | succ f ih =>
    intro current buf hle
    by_cases hc : value ≤ current
    · rw [greedyGo, if_pos ⟨hv, hc⟩, ih (current - value) (buf ++ sym) (by omega)]
      have hdiv : current / value = (current - value) / value + 1 :=
        Nat.div_eq_sub_div hv hc
      have hmod : current % value = (current - value) % value :=
        (Nat.mod_eq_sub_mod hc).symm ▸ rfl
      rw [hdiv, Nat.mod_eq_sub_mod hc]
      rfl
    · rw [greedyGo, if_neg (by tauto), Nat.div_eq_of_lt (by omega),
        Nat.mod_eq_of_lt (by omega)]
      rfl

/-- Unrolling: `greedyStep` appends `current / value` copies of the symbol and returns
remainder `current % value`. -/
theorem greedyStep_eq (value : Nat) (sym : String) (current : Nat)
    (buf : String) (hv : 0 < value) :
    greedyStep value sym current buf =
      (appRep buf sym (current / value), current % value) :=
  greedyGo_eq value sym hv current current buf (Nat.le_refl current)

/-- Length of a buffer extended with `k` copies of a symbol. -/
theorem appRep_length (sym : String) :
    ∀ (k : Nat) (buf : String),
      (appRep buf sym k).length = buf.length + k * sym.length := by
  intro k
  induction k with
  | zero => intro buf; simp [appRep]
  | succ m ih =>
    intro buf
    rw [appRep, ih, String.length_append]
    ring

/-- Character data of a buffer extended with `k` copies of a symbol. -/
theorem appRep_data (sym : String) :
    ∀ (k : Nat) (buf : String),
      (appRep buf sym k).data = buf.data ++ (List.replicate k sym.data).flatten := by
  intro k
  induction k with
  | zero => intro buf; simp [appRep]
  | succ m ih =>
    intro buf
    rw [appRep, ih, List.replicate_succ]
    simp [String.data_append]

/-- The formatter's final state, characterized entry by entry: the buffer is
the ladder symbols repeated according to the greedy quotients and the
remainder is the chained residue. -/
theorem runState_upper_eq (v : Nat) :
    (RomanFormatter.mk Style.Upper v).runState =
      (appRep (appRep (appRep (appRep (appRep (appRep (appRep (appRep (appRep
        (appRep (appRep (appRep (appRep "" "M" (v / 1000)) "CM"
        (v % 1000 / 900)) "D" (v % 1000 % 900 / 500)) "CD"
        (v % 1000 % 900 % 500 / 400)) "C" (v % 1000 % 900 % 500 % 400 / 100))
        "XC" (v % 1000 % 900 % 500 % 400 % 100 / 90)) "L"
        (v % 1000 % 900 % 500 % 400 % 100 % 90 / 50)) "XL"
        (v % 1000 % 900 % 500 % 400 % 100 % 90 % 50 / 40)) "X"
        (v % 1000 % 900 % 500 % 400 % 100 % 90 % 50 % 40 / 10)) "IX"
        (v % 1000 % 900 % 500 % 400 % 100 % 90 % 50 % 40 % 10 / 9)) "V"
        (v % 1000 % 900 % 500 % 400 % 100 % 90 % 50 % 40 % 10 % 9 / 5)) "IV"
        (v % 1000 % 900 % 500 % 400 % 100 % 90 % 50 % 40 % 10 % 9 % 5 / 4)) "I"
        (v % 1000 % 900 % 500 % 400 % 100 % 90 % 50 % 40 % 10 % 9 % 5 % 4 / 1),
       v % 1000 % 900 % 500 % 400 % 100 % 90 % 50 % 40 % 10 % 9 % 5 % 4 % 1) := by
  unfold RomanFormatter.runState VALUES
  simp only [List.foldl_cons, List.foldl_nil]
  rw [greedyStep_eq 1000 _ _ _ (by omega)]
  rw [greedyStep_eq 900 _ _ _ (by omega)]
  rw [greedyStep_eq 500 _ _ _ (by omega)]
  rw [greedyStep_eq 400 _ _ _ (by omega)]
  rw [greedyStep_eq 100 _ _ _ (by omega)]
  rw [greedyStep_eq 90 _ _ _ (by omega)]
  rw [greedyStep_eq 50 _ _ _ (by omega)]
  rw [greedyStep_eq 40 _ _ _ (by omega)]
  rw [greedyStep_eq 10 _ _ _ (by omega)]
  rw [greedyStep_eq 9 _ _ _ (by omega)]
  rw [greedyStep_eq 5 _ _ _ (by omega)]
  rw [greedyStep_eq 4 _ _ _ (by omega)]
  rw [greedyStep_eq 1 _ _ _ (by omega)]

/-- Lowercase analogue of `runState_upper_eq`. -/
theorem runState_lower_eq (v : Nat) :
    (RomanFormatter.mk Style.Lower v).runState =
      (appRep (appRep (appRep (appRep (appRep (appRep (appRep (appRep (appRep
        (appRep (appRep (appRep (appRep "" "m" (v / 1000)) "cm"
        (v % 1000 / 900)) "d" (v % 1000 % 900 / 500)) "cd"
        (v % 1000 % 900 % 500 / 400)) "c" (v % 1000 % 900 % 500 % 400 / 100))
        "xc" (v % 1000 % 900 % 500 % 400 % 100 / 90)) "l"
        (v % 1000 % 900 % 500 % 400 % 100 % 90 / 50)) "xl"
        (v % 1000 % 900 % 500 % 400 % 100 % 90 % 50 / 40)) "x"
        (v % 1000 % 900 % 500 % 400 % 100 % 90 % 50 % 40 / 10)) "ix"
        (v % 1000 % 900 % 500 % 400 % 100 % 90 % 50 % 40 % 10 / 9)) "v"
        (v % 1000 % 900 % 500 % 400 % 100 % 90 % 50 % 40 % 10 % 9 / 5)) "iv"
        (v % 1000 % 900 % 500 % 400 % 100 % 90 % 50 % 40 % 10 % 9 % 5 / 4)) "i"
        (v % 1000 % 900 % 500 % 400 % 100 % 90 % 50 % 40 % 10 % 9 % 5 % 4 / 1),
       v % 1000 % 900 % 500 % 400 % 100 % 90 % 50 % 40 % 10 % 9 % 5 % 4 % 1) := by
  unfold RomanFormatter.runState VALUES
  simp only [List.foldl_cons, List.foldl_nil]
  rw [greedyStep_eq 1000 _ _ _ (by omega)]
  rw [greedyStep_eq 900 _ _ _ (by omega)]
  rw [greedyStep_eq 500 _ _ _ (by omega)]
  rw [greedyStep_eq 400 _ _ _ (by omega)]
  rw [greedyStep_eq 100 _ _ _ (by omega)]
  rw [greedyStep_eq 90 _ _ _ (by omega)]
  rw [greedyStep_eq 50 _ _ _ (by omega)]
  rw [greedyStep_eq 40 _ _ _ (by omega)]
  rw [greedyStep_eq 10 _ _ _ (by omega)]
  rw [greedyStep_eq 9 _ _ _ (by omega)]
  rw [greedyStep_eq 5 _ _ _ (by omega)]
  rw [greedyStep_eq 4 _ _ _ (by omega)]
  rw [greedyStep_eq 1 _ _ _ (by omega)]

/-- Output length contributed by the hundreds group of ladder entries
(`CM`, `D`, `CD`, `C`) on a residue below `1000`. -/
theorem hundreds_group_length (r : Nat) (h : r < 1000) :
    r / 900 * 2 + r % 900 / 500 * 1 + r % 900 % 500 / 400 * 2 +
      r % 900 % 500 % 400 / 100 * 1 ≤ 4 := by
  omega

/-- Output length contributed by the tens group (`XC`, `L`, `XL`, `X`) on a
residue below `100`. -/
theorem tens_group_length (r : Nat) (h : r < 100) :
    r / 90 * 2 + r % 90 / 50 * 1 + r % 90 % 50 / 40 * 2 +
      r % 90 % 50 % 40 / 10 * 1 ≤ 4 := by
  omega

/-- Output length contributed by the units group (`IX`, `V`, `IV`, `I`) on a
residue below `10`. -/
theorem ones_group_length (r : Nat) (h : r < 10) :
    r / 9 * 2 + r % 9 / 5 * 1 + r % 9 % 5 / 4 * 2 +
      r % 9 % 5 % 4 / 1 * 1 ≤ 4 := by
  omega

/-- Parsing is driven entirely by `to_digit`: two inputs whose bytes map
pairwise to the same `to_digit` results run the parse loop identically. -/
theorem parseLoop_congr {l₁ l₂ : List Nat}
    (h : List.Forall₂ (fun a b => to_digit a = to_digit b) l₁ l₂) :
    ∀ (st : Option Accumulator) (sum : Nat),
      parseLoop l₁ st sum = parseLoop l₂ st sum := by
  induction h with
  | nil => intro st sum; rfl
  | @cons a b t₁ t₂ hab htl ih =>
    intro st sum
    cases hdb : to_digit b with
    | error e => simp only [parseLoop, hab, hdb]
    | ok w =>
      cases st with
      | none =>
        simp only [parseLoop, hab, hdb]
        exact ih _ _
      | some acc =>
        simp only [parseLoop, hab, hdb]
        cases hp : acc.push w with
        | Continue a2 => simp only [hp]; exact ih _ _
        | Complete n a2 =>
          simp only [hp]
          cases hca : checkedAdd n sum with
          | error e => simp only [hca]
          | ok sum2 => simp only [hca]; exact ih _ _

/-- ASCII-uppercasing a Roman-numeral character does not change its digit
value. -/
theorem to_digit_upperChar (c : Char) (h : c ∈ romanChars) :
    to_digit ((asciiUpperChar c).toNat) = to_digit c.toNat := by
  fin_cases h <;> decide

/-- ASCII-lowercasing a Roman-numeral character does not change its digit
value. -/
theorem to_digit_lowerChar (c : Char) (h : c ∈ romanChars) :
    to_digit ((asciiLowerChar c).toNat) = to_digit c.toNat := by
  fin_cases h <;> decide

/-- Lifting `to_digit_upperChar` to whole strings. -/
theorem forall₂_upper (l : List Char) (h : ∀ c ∈ l, c ∈ romanChars) :
    List.Forall₂ (fun a b => to_digit a = to_digit b)
      ((l.map asciiUpperChar).map Char.toNat) (l.map Char.toNat) := by
  induction l with
  | nil => simp only [List.map_nil]; exact List.Forall₂.nil
  | cons c t ih =>
    simp only [List.map_cons]
    exact List.Forall₂.cons
      (to_digit_upperChar c (h c (List.mem_cons_self c t)))
      (ih fun x hx => h x (List.mem_cons_of_mem c hx))

/-- Lifting `to_digit_lowerChar` to whole strings. -/
theorem forall₂_lower (l : List Char) (h : ∀ c ∈ l, c ∈ romanChars) :
    List.Forall₂ (fun a b => to_digit a = to_digit b)
      ((l.map asciiLowerChar).map Char.toNat) (l.map Char.toNat) := by
  induction l with
  | nil => simp only [List.map_nil]; exact List.Forall₂.nil
  | cons c t ih =>
    simp only [List.map_cons]
    exact List.Forall₂.cons
      (to_digit_lowerChar c (h c (List.mem_cons_self c t)))
      (ih fun x hx => h x (List.mem_cons_of_mem c hx))

/-! Claims -/

/-- C2 (counterexample): two clauses of the claim fail. `parse("")` does not
fail with `InvalidDigit` — it fails with `OutOfRange(0)` (the empty unit
stream sums to `0`, which `Roman::new` rejects). And an invalid byte does
not always surface as `InvalidDigit`: 65 copies of `M` followed by `CMA`
contain the invalid byte `A`, yet the checked summation overflows on the
`CM` unit before the `A` is reached, so the parse fails with `Overflow`. -/
theorem c2_counterexample :
    (failsWithInvalidDigit "" = false ∧
     parse "" = .error (.outOfRange 0)) ∧
    (failsWithInvalidDigit
        (String.mk (List.replicate 65 'M' ++ ['C', 'M', 'A'])) = false ∧
     parse (String.mk (List.replicate 65 'M' ++ ['C', 'M', 'A'])) =
       .error .overflow) := by
  decide

/-- C2 (amended): `parse("")` fails with `OutOfRange(0)`, not `InvalidDigit`;
`parse("A")` and `parse("XIIA")` fail with `InvalidDigit` carrying the
offending byte `65`; and on any input containing a byte outside
`{M,D,C,L,X,V,I}` (case-insensitive) the parse fails — with `InvalidDigit`
carrying the first offending byte, except that it fails with `Overflow` when
the checked summation overflows before that byte is reached. -/
theorem c2_rejection :
    parse "" = .error (.outOfRange 0) ∧
    parse "A" = .error (.invalidDigit 65) ∧
    parse "XIIA" = .error (.invalidDigit 65) ∧
    ∀ (s : String) (b : Nat),
      ((s.data.map Char.toNat).find? fun x => !isRomanDigit x) = some b →
      parse s = .error (.invalidDigit b) ∨ parse s = .error .overflow := by
  refine ⟨by decide, by decide, by decide, ?_⟩
  intro s b h
  unfold parse fromStrBytes
  rcases parseLoop_first_invalid (s.data.map Char.toNat) none 0 b h with
    hl | hr
  · rw [hl]
    exact Or.inl rfl
  · rw [hr]
    exact Or.inr rfl

/-- C2 (witness for the amended claim), applying the universal clause to
`"XQ"`, whose first offending byte is `Q` (81). -/
theorem c2_rejection_witness :
    parse "" = .error (.outOfRange 0) ∧
    (parse "XQ" = .error (.invalidDigit 81) ∨ parse "XQ" = .error .overflow) :=
  ⟨c2_rejection.1, c2_rejection.2.2.2 "XQ" 81 (by decide)⟩

/-- C3: the unit values are folded with checked `u16` addition, and a run of
66 or more copies of `M` (so in particular "roughly 70 or more") fails with
`Error::Overflow`, an error distinct from `Error::OutOfRange`. -/
theorem c3_checked_sum_overflow (n : Nat) (h : 66 ≤ n) :
    parse (String.mk (List.replicate n 'M')) = .error .overflow ∧
    ∀ m : Nat, Error.overflow ≠ Error.outOfRange m := by
  constructor
  · obtain ⟨m, rfl⟩ : ∃ m, n = m + 1 := ⟨n - 1, by omega⟩
    unfold parse fromStrBytes
    have hdata : (String.mk (List.replicate (m + 1) 'M')).data.map Char.toNat =
        List.replicate (m + 1) 77 := by
      simp
    rw [hdata, List.replicate_succ]
    have hd : to_digit 77 = .ok 1000 := by decide
    have hnew : Accumulator.new 1000 = (⟨1, 1000⟩ : Accumulator) := rfl
    have hfail : checkedAdd ((1 + (m : Nat) : Int) * 1000) 0 = .error .overflow := by
      unfold checkedAdd
      rw [if_neg]
      intro hcon
      omega
    simp only [parseLoop, hd, hnew, parseLoop_replicateM, hfail]
  · intro m hcon
    cases hcon

/-- C3 (witness): seventy `M`s overflow. -/
theorem c3_checked_sum_overflow_witness :
    parse (String.mk (List.replicate 70 'M')) = .error .overflow ∧
    Error.overflow ≠ Error.outOfRange 5000 :=
  ⟨(c3_checked_sum_overflow 70 (by decide)).1,
   (c3_checked_sum_overflow 70 (by decide)).2 5000⟩

/-- C4: `Roman::new` returns `None` exactly on `0` and on values above
`4999`; in particular `new(0)` and `new(5000)` are `None`, and every
successfully constructed `Roman` holds a value in `[1, 4999]`. -/
theorem c4_validated_constructor :
    (∀ n : Nat, Roman.new n = none ↔ (n = 0 ∨ 4999 < n)) ∧
    Roman.new 0 = none ∧ Roman.new 5000 = none ∧
    ∀ (n : Nat) (r : Roman), Roman.new n = some r →
      1 ≤ r.val ∧ r.val ≤ 4999 := by
  refine ⟨?_, by decide, by decide, ?_⟩
  · intro n
    unfold Roman.new nonZeroU16New
    split_ifs with h1 h2 <;> simp <;> omega
  · intro n r h
    unfold Roman.new nonZeroU16New at h
    by_cases h1 : n ≤ 4999
    · rw [if_pos h1] at h
      by_cases h2 : n = 0
      · rw [if_pos h2] at h; cases h
      · rw [if_neg h2, Option.map_some'] at h
        cases h
        have hval : (Roman.mk n).val = n := rfl
        rw [hval]
        exact ⟨by omega, h1⟩
    · rw [if_neg h1] at h; cases h

/-- C4 (witness): applying the constructor contract at `42`. -/
theorem c4_validated_constructor_witness :
    1 ≤ (Roman.mk 42).val ∧ (Roman.mk 42).val ≤ 4999 :=
  c4_validated_constructor.2.2.2 42 (Roman.mk 42) (by decide)

/-- C7: the parser tolerates non-canonical repetition: `IIII` parses to `4`,
`XXXX` to `40`, and `IIIIIX` to `5` (the run of five `I`s is multiplied out
and subtracted from the following `X` as one block). -/
theorem c7_non_canonical_tolerance :
    parse "IIII" = .ok (Roman.mk 4) ∧
    parse "XXXX" = .ok (Roman.mk 40) ∧
    parse "IIIIIX" = .ok (Roman.mk 5) := by
  decide

/-- C9: the eager buffered formatters agree with the lazy `RomanFormatter`
rendered through `Display`, and the default `Display` of `Roman` is the
uppercase formatting. -/
theorem c9_formatter_equivalence (r : Roman) :
    (r.format Style.Upper).fmt = r.toUppercase ∧
    (r.format Style.Lower).fmt = r.toLowercase ∧
    r.display = (r.format Style.Upper).fmt :=
  ⟨rfl, rfl, rfl⟩

/-- C10: on `[1, 4999]` the constructor succeeds and the `value` accessor
returns exactly the constructed integer. -/
theorem c10_new_value_roundtrip (n : Nat) (h1 : 1 ≤ n) (h2 : n ≤ 4999) :
    Roman.new n = some (Roman.mk n) ∧ (Roman.mk n).value = n := by
  constructor
  · unfold Roman.new nonZeroU16New
    rw [if_pos h2, if_neg (by omega)]
    rfl
  · rfl

/-- C10 (witness). -/
theorem c10_new_value_roundtrip_witness :
    Roman.new 42 = some (Roman.mk 42) ∧ (Roman.mk 42).value = 42 :=
  c10_new_value_roundtrip 42 (by decide) (by decide)

/-- C5 (counterexample): with the `4999` ceiling the formatted output of
`4888` is `MMMMDCCCLXXXVIII`, which has 16 characters, exceeding the claimed
bound of 15. -/
theorem c5_counterexample :
    ((Roman.mk 4888).format Style.Upper).fmt = "MMMMDCCCLXXXVIII" ∧
    ((Roman.mk 4888).format Style.Upper).fmt.length = 16 := by
  decide

/-- C5 (amended): for every value in the valid range the formatted output
has length at most 16 characters (16 is attained, at `4888`; the bound 15
claimed by the spec holds only for the `3999` ceiling). -/
theorem c5_length_bound (v : Nat) (st : Style) (h1 : 1 ≤ v) (h2 : v ≤ 4999) :
    ((Roman.mk v).format st).fmt.length ≤ 16 := by
  have hM : ("M" : String).length = 1 := rfl
  have hCM : ("CM" : String).length = 2 := rfl
  have hD : ("D" : String).length = 1 := rfl
  have hCD : ("CD" : String).length = 2 := rfl
  have hC : ("C" : String).length = 1 := rfl
  have hXC : ("XC" : String).length = 2 := rfl
  have hL : ("L" : String).length = 1 := rfl
  have hXL : ("XL" : String).length = 2 := rfl
  have hX : ("X" : String).length = 1 := rfl
  have hIX : ("IX" : String).length = 2 := rfl
  have hV : ("V" : String).length = 1 := rfl
  have hIV : ("IV" : String).length = 2 := rfl
  have hI : ("I" : String).length = 1 := rfl
  have hm : ("m" : String).length = 1 := rfl
  have hcm : ("cm" : String).length = 2 := rfl
  have hd : ("d" : String).length = 1 := rfl
  have hcd : ("cd" : String).length = 2 := rfl
  have hc : ("c" : String).length = 1 := rfl
  have hxc : ("xc" : String).length = 2 := rfl
  have hl : ("l" : String).length = 1 := rfl
  have hxl : ("xl" : String).length = 2 := rfl
  have hx : ("x" : String).length = 1 := rfl
  have hix : ("ix" : String).length = 2 := rfl
  have hv : ("v" : String).length = 1 := rfl
  have hiv : ("iv" : String).length = 2 := rfl
  have hi : ("i" : String).length = 1 := rfl
  have hnil : ("" : String).length = 0 := rfl
  have hth : v / 1000 * 1 ≤ 4 := by omega
  have hH := hundreds_group_length (v % 1000) (Nat.mod_lt v (by omega))
  have hT := tens_group_length (v % 1000 % 900 % 500 % 400 % 100)
    (Nat.mod_lt _ (by omega))
  have hO := ones_group_length
    (v % 1000 % 900 % 500 % 400 % 100 % 90 % 50 % 40 % 10)
    (Nat.mod_lt _ (by omega))
  cases st with
  | Upper =>
    show ((RomanFormatter.mk Style.Upper v).runState).1.length ≤ 16
    rw [runState_upper_eq]
    simp only [appRep_length, hM, hCM, hD, hCD, hC, hXC, hL, hXL, hX, hIX,
      hV, hIV, hI, hnil]
    linarith
  | Lower =>
    show ((RomanFormatter.mk Style.Lower v).runState).1.length ≤ 16
    rw [runState_lower_eq]
    simp only [appRep_length, hm, hcm, hd, hcd, hc, hxc, hl, hxl, hx, hix,
      hv, hiv, hi, hnil]
    linarith

/-- C5 (witness for the amended claim), at the maximizing value `4888`. -/
theorem c5_length_bound_witness :
    ((Roman.mk 4888).format Style.Upper).fmt.length ≤ 16 :=
  c5_length_bound 4888 Style.Upper (by decide) (by decide)

/-- C8: for every value in the valid range (and either style) the greedy
encoder loop over the descending ladder terminates with its running
remainder equal to `0`; the encoder is a total function with no error
path. -/
theorem c8_encoder_remainder_zero (v : Nat) (st : Style)
    (h1 : 1 ≤ v) (h2 : v ≤ 4999) :
    (RomanFormatter.mk st v).runState.2 = 0 := by
  cases st with
  | Upper => rw [runState_upper_eq]; exact Nat.mod_one _
  | Lower => rw [runState_lower_eq]; exact Nat.mod_one _

/-- C8 (witness), at the top of the range. -/
theorem c8_encoder_remainder_zero_witness :
    (RomanFormatter.mk Style.Upper 4999).runState.2 = 0 :=
  c8_encoder_remainder_zero 4999 Style.Upper (by decide) (by decide)

/-- C6: parsing a numeral string (a string over the Roman-digit alphabet in
either case, per §8's "valid numeral string") is case-insensitive: the
string, its uppercased form and its lowercased form all parse to the same
result. Case conversion is modelled byte-wise on ASCII, where Rust's Unicode
conversions coincide with it on this alphabet. -/
theorem c6_case_insensitive (s : String) (h : ∀ c ∈ s.data, c ∈ romanChars) :
    parse (upperStr s) = parse s ∧ parse (lowerStr s) = parse s := by
  constructor
  · show fromStrBytes ((s.data.map asciiUpperChar).map Char.toNat) =
      fromStrBytes (s.data.map Char.toNat)
    unfold fromStrBytes
    rw [parseLoop_congr (forall₂_upper s.data h)]
  · show fromStrBytes ((s.data.map asciiLowerChar).map Char.toNat) =
      fromStrBytes (s.data.map Char.toNat)
    unfold fromStrBytes
    rw [parseLoop_congr (forall₂_lower s.data h)]

/-- C6 (witness), on a mixed-case numeral. -/
theorem c6_case_insensitive_witness :
    parse (upperStr "xViI") = parse "xViI" ∧
    parse (lowerStr "xViI") = parse "xViI" :=
  c6_case_insensitive "xViI" (by decide)

/-! Exhaustive round-trip enumeration (C1), in chunks of 1000 -/

set_option maxRecDepth 200000 in
set_option maxHeartbeats 4000000 in
theorem roundTrip_chunk0 :
    ((List.range 1000).all fun i => i = 0 || roundTripCheck i) = true := by
  decide

set_option maxRecDepth 200000 in
set_option maxHeartbeats 4000000 in
theorem roundTrip_chunk1 :
    ((List.range 1000).all fun i => roundTripCheck (i + 1000)) = true := by
  decide

set_option maxRecDepth 200000 in
set_option maxHeartbeats 4000000 in
theorem roundTrip_chunk2 :
    ((List.range 1000).all fun i => roundTripCheck (i + 2000)) = true := by
  decide

set_option maxRecDepth 200000 in
set_option maxHeartbeats 4000000 in
theorem roundTrip_chunk3 :
    ((List.range 1000).all fun i => roundTripCheck (i + 3000)) = true := by
  decide

set_option maxRecDepth 200000 in
set_option maxHeartbeats 4000000 in
theorem roundTrip_chunk4 :
    ((List.range 1000).all fun i => roundTripCheck (i + 4000)) = true := by
  decide

/-- Assembling the chunks: every value in `[1, 4999]` passes the round-trip
check. -/
theorem roundTripCheck_true (v : Nat) (h1 : 1 ≤ v) (h2 : v ≤ 4999) :
    roundTripCheck v = true := by
  by_cases hv0 : v < 1000
  · have h := List.all_eq_true.1 roundTrip_chunk0 v (List.mem_range.2 hv0)
    rcases (Bool.or_eq_true _ _).mp h with h0 | hr
    · exact absurd (of_decide_eq_true h0) (by omega)
    · exact hr
  · by_cases hv1 : v < 2000
    · have h := List.all_eq_true.1 roundTrip_chunk1 (v - 1000)
        (List.mem_range.2 (by omega))
      rw [show v - 1000 + 1000 = v from by omega] at h
      exact h
    · by_cases hv2 : v < 3000
      · have h := List.all_eq_true.1 roundTrip_chunk2 (v - 2000)
          (List.mem_range.2 (by omega))
        rw [show v - 2000 + 2000 = v from by omega] at h
        exact h
      · by_cases hv3 : v < 4000
        · have h := List.all_eq_true.1 roundTrip_chunk3 (v - 3000)
            (List.mem_range.2 (by omega))
          rw [show v - 3000 + 3000 = v from by omega] at h
          exact h
        · have h := List.all_eq_true.1 roundTrip_chunk4 (v - 4000)
            (List.mem_range.2 (by omega))
          rw [show v - 4000 + 4000 = v from by omega] at h
          exact h

/-- C1: for every value in `[1, 4999]`, parsing the formatted output returns
the value again, in both styles. -/
theorem c1_round_trip (v : Nat) (h1 : 1 ≤ v) (h2 : v ≤ 4999) :
    parse ((Roman.mk v).format Style.Upper).fmt = .ok (Roman.mk v) ∧
    parse ((Roman.mk v).format Style.Lower).fmt = .ok (Roman.mk v) := by
  have key := (Bool.and_eq_true _ _).mp (roundTripCheck_true v h1 h2)
  exact ⟨of_decide_eq_true key.1, of_decide_eq_true key.2⟩

/-- C1 (witness), at `1984`. -/
theorem c1_round_trip_witness :
    parse ((Roman.mk 1984).format Style.Upper).fmt = .ok (Roman.mk 1984) ∧
    parse ((Roman.mk 1984).format Style.Lower).fmt = .ok (Roman.mk 1984) :=
  c1_round_trip 1984 (by decide) (by decide)

end Xvii
